import Mathlib

/-!
Verification of the wave-alert engine (`wave_alert.py`): the opening-hours
predicate parser/evaluator, exceedance detection, window expansion/merge,
weather collocation and the per-run orchestration.

Strings are modelled as lists of characters; Python `int` timestamps become
`Int` (epoch minutes), wave heights become `ℚ`; code that can raise is
mirrored in an `Except Unit` variant where each potentially-raising primitive
is checked explicitly.
-/

namespace WaveAlert

/-- Python strings, modelled as lists of characters. -/
abbrev Str := List Char

/-- `str.strip()`: drop leading and trailing whitespace. -/
def strip (s : Str) : Str :=
  ((s.dropWhile Char.isWhitespace).reverse.dropWhile Char.isWhitespace).reverse

/-- `str.split(sep)` for a one-character separator: keeps empty fields,
always returns at least one field. -/
def splitOnCh (sep : Char) : Str → List Str
  | [] => [[]]
  | c :: rest =>
    if c = sep then [] :: splitOnCh sep rest
    else
      match splitOnCh sep rest with
      | [] => [[c]]
      | g :: gs => (c :: g) :: gs

/-- Helper for `splitWs`: `cur` is the current word, reversed. -/
def splitWsAux : Str → Str → List Str
  | cur, [] => if cur = [] then [] else [cur.reverse]
  | cur, c :: rest =>
    if c.isWhitespace then
      if cur = [] then splitWsAux [] rest else cur.reverse :: splitWsAux [] rest
    else splitWsAux (c :: cur) rest

/-- `str.split()` with no argument: split on whitespace runs, no empty fields. -/
def splitWs (s : Str) : List Str := splitWsAux [] s

/-- `sep.join(xs)` for a one-character separator. -/
def joinCh (sep : Char) : List Str → Str
  | [] => []
  | [x] => x
  | x :: rest => x ++ sep :: joinCh sep rest

/-- `str.lower()`. -/
def toLowerStr (s : Str) : Str := s.map Char.toLower

/-- `tok.split("-", 1)`: split at the first separator only. -/
def pySplit1 (sep : Char) (s : Str) : List Str :=
  match splitOnCh sep s with
  | [] => []
  | [a] => [a]
  | a :: rest => [a, joinCh sep rest]

/-- `DAY_IDX` lookup: the position of a weekday abbreviation in
`["Mo", "Tu", "We", "Th", "Fr", "Sa", "Su"]`, 0 = Monday. -/
def dayIdx? : Str → Option Nat
  | ['M', 'o'] => some 0
  | ['T', 'u'] => some 1
  | ['W', 'e'] => some 2
  | ['T', 'h'] => some 3
  | ['F', 'r'] => some 4
  | ['S', 'a'] => some 5
  | ['S', 'u'] => some 6
  | _ => none

/-- Numeric value of a decimal digit character. -/
def digitVal (c : Char) : Nat := c.toNat - 48

/-- Match exactly two digits (a `MM` group of the time regex). -/
def matchMin : Str → Option (Nat × Str)
  | a :: b :: rest =>
    if a.isDigit && b.isDigit then some (10 * digitVal a + digitVal b, rest) else none
  | _ => none

/-- Match a greedy 1-2 digit hour group then continue with `k`; on failure of
the two-digit continuation, backtrack to one digit (regex `\d{1,2}`). -/
def matchHourThen (k : Nat → Str → Option ((Nat × Nat × Nat × Nat) × Str)) :
    Str → Option ((Nat × Nat × Nat × Nat) × Str)
  | a :: b :: rest =>
    if a.isDigit then
      if b.isDigit then
        match k (10 * digitVal a + digitVal b) rest with
        | some r => some r
        | none => k (digitVal a) (b :: rest)
      else k (digitVal a) (b :: rest)
    else none
  | [a] => if a.isDigit then k (digitVal a) [] else none
  | [] => none

/-- Match the time pattern `(\d{1,2}):(\d{2})-(\d{1,2}):(\d{2})` at the head
of the input; on success return the four captured numbers and the rest. -/
def matchTimeRange (cs : Str) : Option ((Nat × Nat × Nat × Nat) × Str) :=
  matchHourThen (fun h1 cs1 =>
    match cs1 with
    | ':' :: cs2 =>
      match matchMin cs2 with
      | some (m1, cs3) =>
        match cs3 with
        | '-' :: cs4 =>
          matchHourThen (fun h2 cs5 =>
            match cs5 with
            | ':' :: cs6 =>
              match matchMin cs6 with
              | some (m2, cs7) => some ((h1, m1, h2, m2), cs7)
              | none => none
            | _ => none) cs4
        | _ => none
      | none => none
    | _ => none) cs

/-- `finditer` driver with fuel (one unit per character is enough, every
match consumes at least one character): scan left to right, emit
non-overlapping matches, advance one character on failure. -/
def finditerAux : Nat → Str → List (Nat × Nat × Nat × Nat)
  | 0, _ => []
  | _ + 1, [] => []
  | fuel + 1, c :: rest =>
    match matchTimeRange (c :: rest) with
    | some (g, rest2) => g :: finditerAux fuel rest2
    | none => finditerAux fuel rest

/-- `time_pat.finditer(joined)`: all non-overlapping matches of the time
pattern, left to right. -/
def finditerTimes (cs : Str) : List (Nat × Nat × Nat × Nat) := finditerAux cs.length cs

/-- `range(a, b)` over naturals. -/
def rangeFromTo (a b : Nat) : List Nat := (List.range (b - a)).map (a + ·)

/-- The token `off`, lowered. -/
def offTok : Str := ['o', 'f', 'f']

/-- The synthetic `ALL` day token. -/
def allTok : Str := ['A', 'L', 'L']

/-- The literal `24/7`. -/
def fullWeekTok : Str := ['2', '4', '/', '7']

/-- The `A-B` day-range arm (lines 135-142): `a, b = tok.split("-", 1)`,
then the range (wrapping when `a > b`) if both ends are weekday names, else
nothing. -/
def dayRangeDays (tok : Str) : Option (List Nat) :=
  match pySplit1 '-' tok with
  | [a, b] =>
    match dayIdx? a, dayIdx? b with
    | some ai, some bi =>
      if ai ≤ bi then some (rangeFromTo ai (bi + 1))
      else some (rangeFromTo ai 7 ++ rangeFromTo 0 (bi + 1))
    | _, _ => none
  | _ => none

/-- The day-expansion loop of `_parse_opening_hours` (lines 129-144): `acc`
is the accumulated `days` list; `ALL` discards it and yields all seven days. -/
def expandDaysAux : List Nat → List Str → List Nat
  | acc, [] => acc
  | acc, tok0 :: rest =>
    let tok := strip tok0
    if tok = allTok then List.range 7
    else if tok.contains '-' then
      match dayRangeDays tok with
      | some ds => expandDaysAux (acc ++ ds) rest
      | none => expandDaysAux acc rest
    else
      match dayIdx? tok with
      | some di => expandDaysAux (acc ++ [di]) rest
      | none => expandDaysAux acc rest

/-- The per-weekday interval table `days_map`, index 0 = Monday. -/
abbrev DaysMap := List (List (Nat × Nat))

/-- `days_map[d].append((s, e))`. -/
def appendInterval (m : DaysMap) (d : Nat) (iv : Nat × Nat) : DaysMap :=
  m.set d (m.getD d [] ++ [iv])

/-- `days_map[d] = []` ('off' handling). -/
def clearDay (m : DaysMap) (d : Nat) : DaysMap := m.set d []

/-- Python tuple comparison on `(start, end)` pairs (lexicographic). -/
def intervalLe (x y : Nat × Nat) : Bool :=
  decide (x.1 < y.1 ∨ (x.1 = y.1 ∧ x.2 ≤ y.2))

/-- Stable insertion of `x` after the existing elements `≤` it. -/
def insertSorted (le : α → α → Bool) (x : α) : List α → List α
  | [] => [x]
  | y :: ys => if le y x then y :: insertSorted le x ys else x :: y :: ys

/-- Python `sorted(l)` for the total order `le`: stable insertion sort. -/
def pySorted (le : α → α → Bool) (l : List α) : List α :=
  l.foldl (fun acc x => insertSorted le x acc) []

/-- One step of the merge sweep (lines 166-170): append when disjoint from
the last merged interval, otherwise widen the last one. -/
def sweepStep (merged : List (Nat × Nat)) (se : Nat × Nat) : List (Nat × Nat) :=
  match merged.getLast? with
  | none => [se]
  | some last =>
    if last.2 < se.1 then merged ++ [se]
    else merged.dropLast ++ [(last.1, max last.2 se.2)]

/-- Sort a weekday's intervals and merge overlapping ones (lines 162-171). -/
def mergeSweep (rngs : List (Nat × Nat)) : List (Nat × Nat) :=
  (pySorted intervalLe rngs).foldl sweepStep []

/-- Normalisation applied to every weekday after all rules. -/
def normalizeMap (m : DaysMap) : DaysMap := m.map mergeSweep

/-- Handle one regex match (lines 155-161): accept the range only when
`0 <= start < 1440`, `0 <= end <= 1440` and `start < end`, appending it to
every matched day. -/
def timeStep (days : List Nat) (mm : DaysMap) (g : Nat × Nat × Nat × Nat) : DaysMap :=
  let s := g.1 * 60 + g.2.1
  let en := g.2.2.1 * 60 + g.2.2.2
  if s < 1440 ∧ en ≤ 1440 ∧ s < en then
    days.foldl (fun m2 d => appendInterval m2 d (s, en)) mm
  else mm

/-- Apply one `;`-separated rule to the interval table (lines 116-161). -/
def applyRule (m : DaysMap) (rule : Str) : DaysMap :=
  let parts := splitWs rule
  match parts with
  | [] => m
  | p0 :: _ =>
    let dt := if p0.any Char.isDigit then ([allTok], parts) else (splitOnCh ',' p0, parts.drop 1)
    let dayTokens := dt.1
    let timeTokens := dt.2
    let days0 := expandDaysAux [] dayTokens
    let days := if days0 = [] then List.range 7 else days0
    if timeTokens.any (fun t => toLowerStr t = offTok) then
      days.foldl clearDay m
    else
      let joined := joinCh ',' timeTokens
      (finditerTimes joined).foldl (timeStep days) m

/-- The predicate `_parse_opening_hours` returns: either the constant-true
closure (empty spec, `24/7`) or the `is_open` closure over a `days_map`. -/
inductive OpeningPred where
  | always
  | table (days : DaysMap)
deriving DecidableEq

/-- `is_open(dt)` (lines 173-179) over an explicit weekday / hour / minute. -/
def is_open (days_map : DaysMap) (weekday hour minute : Nat) : Bool :=
  let m := hour * 60 + minute
  (days_map.getD weekday []).any fun se => decide (se.1 ≤ m) && decide (m < se.2)

/-- Evaluate the parsed predicate at a local datetime. -/
def evalPred : OpeningPred → Nat → Nat → Nat → Bool
  | .always, _, _, _ => true
  | .table dm, d, h, mi => is_open dm d h mi

/-- `_parse_opening_hours` (lines 87-181). -/
def parse_opening_hours (spec0 : Str) : OpeningPred :=
  let spec := strip spec0
  if spec = [] then .always
  else if toLowerStr spec = fullWeekTok then .always
  else
    let rules := ((splitOnCh ';' spec).map strip).filter (fun r => r ≠ [])
    let m0 : DaysMap := List.replicate 7 []
    .table (normalizeMap (rules.foldl applyRule m0))

/-- The schedule spec exercised by the spec's examples. -/
def exampleSpec : Str := (r"Mo-Fr 05:00-17:00; Sa-Su 07:00-12:00").data

/-- A rule whose only day token is an unrecognized weekday name. -/
def unknownDaySpec : Str := (r"Xx 05:00-17:00").data

/-- A single unrecognized weekday token. -/
def xxTok : Str := ['X', 'x']

/-- A local date-time as `is_open` consumes it: `dt.weekday()` (0 = Monday),
`dt.hour`, `dt.minute`. -/
structure LocalDT where
  weekday : Nat
  hour : Nat
  minute : Nat

/-- A wave forecast sample: UTC time as epoch minutes, and the wave height
`sea_surface_wave_height`; the display-only float fields are not modelled. -/
structure WaveSample where
  time : Int
  height : ℚ
deriving DecidableEq

/-- The filter condition of the `exceed_indices` comprehension (lines
369-373): `IS_OPEN(to_oslo(w.time)) and w.sea_surface_wave_height >=
WAVE_THRESHOLD`, with the timezone conversion `to_oslo` kept abstract. -/
def exceedCond (toOslo : Int → LocalDT) (p : OpeningPred) (threshold : ℚ)
    (w : WaveSample) : Bool :=
  evalPred p (toOslo w.time).weekday (toOslo w.time).hour (toOslo w.time).minute
    && decide (w.height ≥ threshold)

/-- `[i for i, w in enumerate(wave_list) if keep(w)]`, starting at index `i`. -/
def detectAux (keep : WaveSample → Bool) : Nat → List WaveSample → List Nat
  | _, [] => []
  | i, w :: rest =>
    if keep w then i :: detectAux keep (i + 1) rest else detectAux keep (i + 1) rest

/-- Exceedance detection: the `exceed_indices` comprehension of
`process_location`. -/
def detect (samples : List WaveSample) (toOslo : Int → LocalDT) (p : OpeningPred)
    (threshold : ℚ) : List Nat :=
  detectAux (exceedCond toOslo p threshold) 0 samples

theorem detectAux_ge (keep : WaveSample → Bool) :
    ∀ (l : List WaveSample) (i j : Nat), j ∈ detectAux keep i l → i ≤ j := by
  intro l
  induction l with
  | nil => intro i j h; simp [detectAux] at h
  | cons w rest ih =>
    intro i j h
    by_cases hk : keep w = true
    · simp only [detectAux, hk, if_true, List.mem_cons] at h
      rcases h with rfl | h
      · exact le_refl _
      · exact Nat.le_of_succ_le (ih (i + 1) j h)
    · simp only [detectAux, hk, if_false, Bool.false_eq_true] at h
      exact Nat.le_of_succ_le (ih (i + 1) j h)

theorem detectAux_sorted (keep : WaveSample → Bool) :
    ∀ (l : List WaveSample) (i : Nat), (detectAux keep i l).Sorted (· < ·) := by
  intro l
  induction l with
  | nil => intro i; simp [detectAux]
  | cons w rest ih =>
    intro i
    by_cases hk : keep w = true
    · simp only [detectAux, hk, if_true]
      refine List.sorted_cons.mpr ⟨?_, ih (i + 1)⟩
      intro b hb
      exact lt_of_lt_of_le (Nat.lt_succ_self i) (detectAux_ge keep rest (i + 1) b hb)
    · simp only [detectAux, hk, if_false, Bool.false_eq_true]
      exact ih (i + 1)

theorem detectAux_mem (keep : WaveSample → Bool) :
    ∀ (l : List WaveSample) (i j : Nat),
      j ∈ detectAux keep i l ↔
        ∃ k w, l.get? k = some w ∧ j = i + k ∧ keep w = true := by
  intro l
  induction l with
  | nil => intro i j; simp [detectAux]
  | cons w rest ih =>
    intro i j
    constructor
    · intro h
      by_cases hk : keep w = true
      · simp only [detectAux, hk, if_true, List.mem_cons] at h
        rcases h with rfl | h
        · exact ⟨0, w, rfl, by omega, hk⟩
        · obtain ⟨k, w', hget, hj, hkeep⟩ := (ih (i + 1) j).mp h
          exact ⟨k + 1, w', by simpa using hget, by omega, hkeep⟩
      · simp only [detectAux, hk, if_false, Bool.false_eq_true] at h
        obtain ⟨k, w', hget, hj, hkeep⟩ := (ih (i + 1) j).mp h
        exact ⟨k + 1, w', by simpa using hget, by omega, hkeep⟩
    · rintro ⟨k, w', hget, rfl, hkeep⟩
      cases k with
      | zero =>
        simp only [List.get?] at hget
        cases hget
        simp only [detectAux, hkeep, if_true, List.mem_cons]
        left; omega
      | succ k' =>
        have hmem : i + 1 + k' ∈ detectAux keep (i + 1) rest :=
          (ih (i + 1) (i + 1 + k')).mpr ⟨k', w', by simpa using hget, rfl, hkeep⟩
        by_cases hk : keep w = true
        · simp only [detectAux, hk, if_true, List.mem_cons]
          right
          have : i + (k' + 1) = i + 1 + k' := by omega
          rw [this]; exact hmem
        · simp only [detectAux, hk, if_false, Bool.false_eq_true]
          have : i + (k' + 1) = i + 1 + k' := by omega
          rw [this]; exact hmem

/-- Claim C1: `detect` returns a strictly ascending list of indices, and an
index `i` is in the list iff `waveSamples[i].height >= threshold` (inclusive)
and the parsed predicate holds on the local time of `waveSamples[i].time`. -/
theorem claim1_detect_spec (samples : List WaveSample) (toOslo : Int → LocalDT)
    (p : OpeningPred) (threshold : ℚ) :
    (detect samples toOslo p threshold).Sorted (· < ·) ∧
    ∀ i : Nat, i ∈ detect samples toOslo p threshold ↔
      ∃ w, samples.get? i = some w ∧
        evalPred p (toOslo w.time).weekday (toOslo w.time).hour (toOslo w.time).minute
          = true ∧
        w.height ≥ threshold := by
  constructor
  · exact detectAux_sorted _ _ 0
  · intro i
    rw [detect, detectAux_mem]
    constructor
    · rintro ⟨k, w, hget, rfl, hkeep⟩
      simp only [exceedCond, Bool.and_eq_true, decide_eq_true_eq] at hkeep
      exact ⟨w, by simpa using hget, hkeep.1, hkeep.2⟩
    · rintro ⟨w, hget, hopen, hht⟩
      exact ⟨i, w, hget, by omega, by simp [exceedCond, hopen, hht]⟩

/-- Claim C3: `evaluate` is true exactly when some interval of the weekday's
list contains the minute-of-day (inclusive start, exclusive end), and the
spec's six examples on `"Mo-Fr 05:00-17:00; Sa-Su 07:00-12:00"` hold. -/
theorem claim3_evaluate_spec :
    (∀ (dm : DaysMap) (d h mi : Nat),
      is_open dm d h mi = true ↔
        ∃ se ∈ dm.getD d [], se.1 ≤ h * 60 + mi ∧ h * 60 + mi < se.2) ∧
    evalPred (parse_opening_hours exampleSpec) 0 4 59 = false ∧
    evalPred (parse_opening_hours exampleSpec) 0 5 0 = true ∧
    evalPred (parse_opening_hours exampleSpec) 0 16 59 = true ∧
    evalPred (parse_opening_hours exampleSpec) 0 17 0 = false ∧
    evalPred (parse_opening_hours exampleSpec) 5 7 0 = true ∧
    evalPred (parse_opening_hours exampleSpec) 5 12 0 = false := by
  refine ⟨?_, by decide, by decide, by decide, by decide, by decide, by decide⟩
  intro dm d h mi
  simp [is_open, List.any_eq_true, Bool.and_eq_true, decide_eq_true_eq]

/-- Claim C4 (counterexample): for the rule `"Xx 05:00-17:00"`, whose only
day token is an unrecognized weekday name, the claim says no intervals are
contributed to any weekday — yet the parsed predicate is true on Monday at
06:00. -/
theorem claim4_counterexample :
    evalPred (parse_opening_hours unknownDaySpec) 0 6 0 = true := by decide

/-- Claim C4 (amended): unrecognized weekday tokens are individually ignored
(they extend the day list by nothing), but a rule whose day tokens are all
unrecognized ends with an empty day list and the parser falls back to all
seven days, so the rule's intervals are contributed to every weekday. -/
theorem claim4_day_fallback (tokens : List Str)
    (h : ∀ tok ∈ tokens, strip tok ≠ allTok ∧ (strip tok).contains '-' = false ∧
      dayIdx? (strip tok) = none) :
    (∀ acc, expandDaysAux acc tokens = acc) ∧
    (if expandDaysAux [] tokens = [] then List.range 7 else expandDaysAux [] tokens)
      = List.range 7 ∧
    parse_opening_hours unknownDaySpec = .table (List.replicate 7 [(300, 1020)]) := by
  have hacc : ∀ acc, expandDaysAux acc tokens = acc := by
    induction tokens with
    | nil => intro acc; rfl
    | cons t rest ih =>
      intro acc
      obtain ⟨h1, h2, h3⟩ := h t (List.mem_cons_self t rest)
      have ih2 := ih (fun tok hm => h tok (List.mem_cons_of_mem t hm))
      simp only [expandDaysAux, h1, h2, h3, if_false, Bool.false_eq_true, if_neg]
      exact ih2 acc
  exact ⟨hacc, by rw [hacc]; simp, by decide⟩

/-- Claim C5: both the empty string and the literal `"24/7"` parse to a
predicate that is true at every timestamp. -/
theorem claim5_always_open :
    ∀ (d h mi : Nat),
      evalPred (parse_opening_hours []) d h mi = true ∧
      evalPred (parse_opening_hours fullWeekTok) d h mi = true := by
  intro d h mi
  exact ⟨rfl, rfl⟩

/-- Python `range(a, b)` over integers. -/
def pyRange (a b : Int) : List Int :=
  (List.range (b - a).toNat).map (fun (k : Nat) => a + (k : Int))

/-- `window_indices(center_idx, total, radius)` (lines 228-231):
`range(max(0, center - radius), min(total, center + radius + 1))`. -/
def window_indices (center total radius : Int) : List Int :=
  pyRange (max 0 (center - radius)) (min total (center + radius + 1))

/-- `set.add`: insert if absent (Python sets are modelled as duplicate-free
lists in insertion order). -/
def setAdd (s : List Int) (x : Int) : List Int := if x ∈ s then s else s ++ [x]

/-- The `selected` set built by the double loop of `process_location`
(lines 377-382). -/
def selectedList (exceed : List Int) (total radius : Int) : List Int :=
  exceed.foldl (fun s i => (window_indices i total radius).foldl setAdd s) []

/-- Integer `≤` as a boolean, for sorting. -/
def intLe (a b : Int) : Bool := decide (a ≤ b)

/-- The window-merge output: the selected index set, deduplicated and in
ascending order. -/
def mergedWindows (exceed : List Int) (total radius : Int) : List Int :=
  pySorted intLe (selectedList exceed total radius)

theorem mem_pyRange {a b j : Int} : j ∈ pyRange a b ↔ a ≤ j ∧ j < b := by
  simp only [pyRange, List.mem_map, List.mem_range]
  constructor
  · rintro ⟨k, hk, rfl⟩
    omega
  · rintro ⟨h1, h2⟩
    exact ⟨(j - a).toNat, by omega, by omega⟩

theorem mem_setAdd {s : List Int} {x y : Int} : y ∈ setAdd s x ↔ y ∈ s ∨ y = x := by
  unfold setAdd
  by_cases h : x ∈ s
  · simp only [h, if_true]
    constructor
    · exact Or.inl
    · rintro (hy | rfl)
      · exact hy
      · exact h
  · simp [h]

theorem nodup_setAdd {s : List Int} {x : Int} (h : s.Nodup) : (setAdd s x).Nodup := by
  unfold setAdd
  by_cases hx : x ∈ s
  · simpa [hx]
  · simp [hx, List.nodup_append, h]

theorem mem_foldl_setAdd :
    ∀ (l s : List Int) (j : Int), j ∈ l.foldl setAdd s ↔ j ∈ s ∨ j ∈ l := by
  intro l
  induction l with
  | nil => simp
  | cons x xs ih =>
    intro s j
    rw [List.foldl_cons, ih, mem_setAdd, List.mem_cons]
    tauto

theorem nodup_foldl_setAdd :
    ∀ (l s : List Int), s.Nodup → (l.foldl setAdd s).Nodup := by
  intro l
  induction l with
  | nil => intro s h; simpa
  | cons x xs ih => intro s h; exact ih _ (nodup_setAdd h)

theorem mem_selectedList {exceed : List Int} {total radius j : Int} :
    j ∈ selectedList exceed total radius ↔
      ∃ i ∈ exceed, j ∈ window_indices i total radius := by
  have key : ∀ (ex s : List Int),
      j ∈ ex.foldl (fun s i => (window_indices i total radius).foldl setAdd s) s ↔
        j ∈ s ∨ ∃ i ∈ ex, j ∈ window_indices i total radius := by
    intro ex
    induction ex with
    | nil => simp
    | cons x xs ih =>
      intro s
      rw [List.foldl_cons, ih, mem_foldl_setAdd]
      simp only [List.mem_cons]
      constructor
      · rintro ((hs | hw) | ⟨i, hi, hwi⟩)
        · exact Or.inl hs
        · exact Or.inr ⟨x, Or.inl rfl, hw⟩
        · exact Or.inr ⟨i, Or.inr hi, hwi⟩
      · rintro (hs | ⟨i, hi | hi, hwi⟩)
        · exact Or.inl (Or.inl hs)
        · subst hi; exact Or.inl (Or.inr hwi)
        · exact Or.inr ⟨i, hi, hwi⟩
  simpa [selectedList] using key exceed []

theorem nodup_selectedList {exceed : List Int} {total radius : Int} :
    (selectedList exceed total radius).Nodup := by
  have key : ∀ (ex s : List Int), s.Nodup →
      (ex.foldl (fun s i => (window_indices i total radius).foldl setAdd s) s).Nodup := by
    intro ex
    induction ex with
    | nil => intro s h; simpa
    | cons x xs ih => intro s h; exact ih _ (nodup_foldl_setAdd _ _ h)
  exact key exceed [] List.nodup_nil

theorem mem_insertSorted (le : α → α → Bool) (x : α) :
    ∀ (l : List α) (y : α), y ∈ insertSorted le x l ↔ y = x ∨ y ∈ l := by
  intro l
  induction l with
  | nil => simp [insertSorted]
  | cons z zs ih =>
    intro y
    by_cases h : le z x = true
    · simp only [insertSorted, h, if_true, List.mem_cons, ih]
      tauto
    · rw [Bool.not_eq_true] at h
      simp only [insertSorted, h, Bool.false_eq_true, if_false, List.mem_cons]

theorem insertSorted_perm (le : α → α → Bool) (x : α) :
    ∀ l : List α, (insertSorted le x l).Perm (x :: l) := by
  intro l
  induction l with
  | nil => simp [insertSorted]
  | cons z zs ih =>
    by_cases h : le z x = true
    · simp only [insertSorted, h, if_true]
      exact (ih.cons z).trans (List.Perm.swap x z zs)
    · rw [Bool.not_eq_true] at h
      simp [insertSorted, h]

theorem foldl_insertSorted_perm (le : α → α → Bool) :
    ∀ (l acc : List α), (l.foldl (fun a x => insertSorted le x a) acc).Perm (acc ++ l) := by
  intro l
  induction l with
  | nil => simp
  | cons x xs ih =>
    intro acc
    have h1 := ih (insertSorted le x acc)
    have h2 : (insertSorted le x acc ++ xs).Perm ((x :: acc) ++ xs) :=
      (insertSorted_perm le x acc).append_right xs
    have h3 : ((x :: acc) ++ xs).Perm (acc ++ x :: xs) := by
      simpa using List.perm_middle.symm
    simp only [List.foldl_cons]
    exact (h1.trans h2).trans h3

theorem pySorted_perm (le : α → α → Bool) (l : List α) : (pySorted le l).Perm l := by
  simpa [pySorted] using foldl_insertSorted_perm le l []

theorem insertSorted_sorted (x : Int) :
    ∀ l : List Int, l.Sorted (· ≤ ·) → (insertSorted intLe x l).Sorted (· ≤ ·) := by
  intro l
  induction l with
  | nil => intro _; simp [insertSorted]
  | cons z zs ih =>
    intro hs
    rw [List.sorted_cons] at hs
    obtain ⟨hz, hzs⟩ := hs
    by_cases h : intLe z x = true
    · have hzx : z ≤ x := by simpa [intLe] using h
      simp only [insertSorted, h, if_true]
      rw [List.sorted_cons]
      refine ⟨?_, ih hzs⟩
      intro b hb
      rcases (mem_insertSorted intLe x zs b).mp hb with rfl | hb2
      · exact hzx
      · exact hz b hb2
    · have hxz : x ≤ z := by simp only [intLe, decide_eq_true_eq] at h; omega
      rw [Bool.not_eq_true] at h
      simp only [insertSorted, h, Bool.false_eq_true, if_false]
      rw [List.sorted_cons]
      refine ⟨?_, List.sorted_cons.mpr ⟨hz, hzs⟩⟩
      intro b hb
      rcases List.mem_cons.mp hb with rfl | hb2
      · exact hxz
      · exact le_trans hxz (hz b hb2)

theorem pySorted_sorted (l : List Int) : (pySorted intLe l).Sorted (· ≤ ·) := by
  have key : ∀ (l acc : List Int), acc.Sorted (· ≤ ·) →
      (l.foldl (fun a x => insertSorted intLe x a) acc).Sorted (· ≤ ·) := by
    intro l
    induction l with
    | nil => intro acc h; simpa
    | cons x xs ih => intro acc h; exact ih _ (insertSorted_sorted x acc h)
  exact key l [] (by simp)

/-- Claim C2: the window-merge output is strictly ascending (hence
deduplicated), equals the union of the clamped inclusive ranges
`[max(0, i - radius), min(total - 1, i + radius)]`, stays within `[0, total)`,
is a superset of the exceedance set, and matches the spec's two examples. -/
theorem claim2_window_merge_spec (exceed : List Int) (total radius : Int)
    (hidx : ∀ i ∈ exceed, 0 ≤ i ∧ i < total) (hrad : 0 ≤ radius) :
    (mergedWindows exceed total radius).Sorted (· < ·) ∧
    (∀ j : Int, j ∈ mergedWindows exceed total radius ↔
      ∃ i ∈ exceed, max 0 (i - radius) ≤ j ∧ j ≤ min (total - 1) (i + radius)) ∧
    (∀ j ∈ mergedWindows exceed total radius, 0 ≤ j ∧ j < total) ∧
    (∀ i ∈ exceed, i ∈ mergedWindows exceed total radius) ∧
    mergedWindows [10] 20 3 = [7, 8, 9, 10, 11, 12, 13] ∧
    mergedWindows [0] 20 3 = [0, 1, 2, 3] := by
  have hperm := pySorted_perm intLe (selectedList exceed total radius)
  have hmem : ∀ j : Int, j ∈ mergedWindows exceed total radius ↔
      ∃ i ∈ exceed, max 0 (i - radius) ≤ j ∧ j < min total (i + radius + 1) := by
    intro j
    rw [mergedWindows, hperm.mem_iff, mem_selectedList]
    constructor
    · rintro ⟨i, hi, hw⟩
      exact ⟨i, hi, mem_pyRange.mp hw⟩
    · rintro ⟨i, hi, hw⟩
      exact ⟨i, hi, mem_pyRange.mpr hw⟩
  refine ⟨?_, ?_, ?_, ?_, by decide, by decide⟩
  · exact (pySorted_sorted _).lt_of_le (hperm.nodup_iff.mpr nodup_selectedList)
  · intro j
    rw [hmem j]
    constructor
    · rintro ⟨i, hi, h1, h2⟩
      have := hidx i hi
      exact ⟨i, hi, by omega, by omega⟩
    · rintro ⟨i, hi, h1, h2⟩
      have := hidx i hi
      exact ⟨i, hi, by omega, by omega⟩
  · intro j hj
    obtain ⟨i, hi, h1, h2⟩ := (hmem j).mp hj
    have := hidx i hi
    omega
  · intro i hi
    have := hidx i hi
    exact (hmem i).mpr ⟨i, hi, by omega, by omega⟩

/-- Witness for C2 at `exceed = [10]`, `total = 20`, `radius = 3`. -/
theorem claim2_window_merge_witness :
    (∀ i ∈ ([10] : List Int), 0 ≤ i ∧ i < 20) ∧
    ((mergedWindows [10] 20 3).Sorted (· < ·) ∧
    (∀ j : Int, j ∈ mergedWindows [10] 20 3 ↔
      ∃ i ∈ ([10] : List Int), max 0 (i - 3) ≤ j ∧ j ≤ min (20 - 1) (i + 3)) ∧
    (∀ j ∈ mergedWindows [10] 20 3, 0 ≤ j ∧ j < 20) ∧
    (∀ i ∈ ([10] : List Int), i ∈ mergedWindows [10] 20 3) ∧
    mergedWindows [10] 20 3 = [7, 8, 9, 10, 11, 12, 13] ∧
    mergedWindows [0] 20 3 = [0, 1, 2, 3]) :=
  ⟨by decide, claim2_window_merge_spec [10] 20 3 (by decide) (by decide)⟩

/-- A weather forecast sample: UTC time as epoch minutes; the display-only
fields are not modelled. -/
structure WeatherSample where
  time : Int
deriving DecidableEq

/-- The running minimum of Python `min(weather_list, key=...)`: fold keeping
the current best, replacing it only on a strictly smaller key. -/
def pickNearest (t : Int) (b : WeatherSample) (l : List WeatherSample) : WeatherSample :=
  l.foldl (fun best x => if |x.time - t| < |best.time - t| then x else best) b

/-- `nearest_weather(weather_list, target_time)` (lines 234-239): `min` by
`abs(w.time - target_time)` when the list is non-empty, else `None`. -/
def nearest_weather (weather_list : List WeatherSample) (target_time : Int) :
    Option WeatherSample :=
  match weather_list with
  | [] => none
  | w :: rest => some (pickNearest target_time w rest)

/-- `weather_map.setdefault(k, v)`: the map is an insertion-ordered
association list; insert only when the key is absent. -/
def setdefault (m : List (Int × WeatherSample)) (k : Int) (v : WeatherSample) :
    List (Int × WeatherSample) :=
  if m.any (fun p => p.1 == k) then m else m ++ [(k, v)]

/-- One iteration of the collocation loop (lines 384-389). -/
def collocateStep (weather_list : List WeatherSample)
    (m : List (Int × WeatherSample)) (wv : WaveSample) : List (Int × WeatherSample) :=
  match nearest_weather weather_list wv.time with
  | some wt => setdefault m wt.time wt
  | none => m

/-- The `weather_map` built by `process_location` (lines 384-389). -/
def collocate (wave_objs : List WaveSample) (weather_list : List WeatherSample) :
    List (Int × WeatherSample) :=
  wave_objs.foldl (collocateStep weather_list) []

theorem pickNearest_split (t : Int) :
    ∀ (l : List WeatherSample) (b : WeatherSample),
      ∃ l1 l2, b :: l = l1 ++ pickNearest t b l :: l2 ∧
        (∀ y ∈ l1, |(pickNearest t b l).time - t| < |y.time - t|) ∧
        (∀ y ∈ l2, |(pickNearest t b l).time - t| ≤ |y.time - t|) := by
  intro l
  induction l with
  | nil =>
    intro b
    exact ⟨[], [], rfl, by simp, by simp⟩
  | cons x rest ih =>
    intro b
    by_cases h : |x.time - t| < |b.time - t|
    · have hu : pickNearest t b (x :: rest) = pickNearest t x rest := by
        simp [pickNearest, h]
      obtain ⟨l1, l2, heq, h1, h2⟩ := ih x
      have hrx : |(pickNearest t x rest).time - t| ≤ |x.time - t| := by
        cases l1 with
        | nil =>
          simp only [List.nil_append] at heq
          rw [← (List.cons_eq_cons.mp heq).1]
        | cons z l1' =>
          have hz := List.cons_eq_cons.mp heq
          exact le_of_lt (h1 x (by rw [hz.1]; exact List.mem_cons_self _ _))
      refine ⟨b :: l1, l2, ?_, ?_, ?_⟩
      · rw [hu, List.cons_append, ← heq]
      · intro y hy
        rcases List.mem_cons.mp hy with rfl | hy2
        · rw [hu]; exact lt_of_le_of_lt hrx h
        · rw [hu]; exact h1 y hy2
      · intro y hy
        rw [hu]; exact h2 y hy
    · have hu : pickNearest t b (x :: rest) = pickNearest t b rest := by
        simp [pickNearest, h]
      obtain ⟨l1, l2, heq, h1, h2⟩ := ih b
      cases l1 with
      | nil =>
        simp only [List.nil_append] at heq
        have hb := List.cons_eq_cons.mp heq
        refine ⟨[], x :: l2, ?_, by simp, ?_⟩
        · rw [List.nil_append, hu, ← hb.1, ← hb.2]
        · intro y hy
          rcases List.mem_cons.mp hy with rfl | hy2
          · rw [hu, ← hb.1]
            exact le_of_not_lt h
          · rw [hu]; exact h2 y hy2
      | cons z l1' =>
        have hz := List.cons_eq_cons.mp heq
        have hpb : |(pickNearest t b rest).time - t| < |b.time - t| :=
          h1 b (by rw [hz.1]; exact List.mem_cons_self _ _)
        refine ⟨b :: x :: l1', l2, ?_, ?_, ?_⟩
        · rw [hu]
          have hx : rest = l1' ++ pickNearest t b rest :: l2 := hz.2
          conv_lhs => rw [hx]
          simp [List.cons_append]
        · intro y hy
          rcases List.mem_cons.mp hy with rfl | hy2
          · rw [hu]; exact hpb
          · rcases List.mem_cons.mp hy2 with rfl | hy3
            · rw [hu]; exact lt_of_lt_of_le hpb (le_of_not_lt h)
            · rw [hu]; exact h1 y (List.mem_cons_of_mem z hy3)
        · intro y hy
          rw [hu]; exact h2 y hy

/-- `min` returns the first element attaining the minimal key: everything
before it in the sequence is strictly farther, everything after no closer. -/
theorem nearest_weather_split (ws : List WeatherSample) (t : Int) (w : WeatherSample)
    (h : nearest_weather ws t = some w) :
    ∃ l1 l2, ws = l1 ++ w :: l2 ∧
      (∀ y ∈ l1, |w.time - t| < |y.time - t|) ∧
      (∀ y ∈ l2, |w.time - t| ≤ |y.time - t|) := by
  cases ws with
  | nil => simp [nearest_weather] at h
  | cons w0 rest =>
    simp only [nearest_weather, Option.some.injEq] at h
    subst h
    exact pickNearest_split t rest w0

theorem nearest_weather_min (ws : List WeatherSample) (t : Int) (w : WeatherSample)
    (h : nearest_weather ws t = some w) :
    w ∈ ws ∧ ∀ y ∈ ws, |w.time - t| ≤ |y.time - t| := by
  obtain ⟨l1, l2, heq, h1, h2⟩ := nearest_weather_split ws t w h
  constructor
  · rw [heq]
    exact List.mem_append_right _ (List.mem_cons_self _ _)
  · intro y hy
    rw [heq] at hy
    rcases List.mem_append.mp hy with hy1 | hy2
    · exact le_of_lt (h1 y hy1)
    · rcases List.mem_cons.mp hy2 with rfl | hy3
      · exact le_refl _
      · exact h2 y hy3

theorem mem_setdefault {m : List (Int × WeatherSample)} {k : Int} {v : WeatherSample}
    {p : Int × WeatherSample} (h : p ∈ setdefault m k v) : p ∈ m ∨ p = (k, v) := by
  unfold setdefault at h
  by_cases hk : (m.any fun p => p.1 == k) = true
  · rw [if_pos hk] at h
    exact Or.inl h
  · rw [if_neg hk] at h
    rcases List.mem_append.mp h with h1 | h2
    · exact Or.inl h1
    · exact Or.inr (List.mem_singleton.mp h2)

theorem nodup_keys_setdefault {m : List (Int × WeatherSample)} {k : Int}
    {v : WeatherSample} (h : (m.map Prod.fst).Nodup) :
    ((setdefault m k v).map Prod.fst).Nodup := by
  unfold setdefault
  by_cases hk : (m.any fun p => p.1 == k) = true
  · rw [if_pos hk]; exact h
  · rw [if_neg hk]
    simp only [List.any_eq_true, beq_iff_eq, not_exists, not_and] at hk
    simp only [List.map_append, List.map_cons, List.map_nil, List.nodup_append]
    refine ⟨h, List.nodup_singleton k, ?_⟩
    intro a ha hb
    rcases List.mem_map.mp ha with ⟨p, hp, rfl⟩
    rcases List.mem_singleton.mp hb
    exact hk p hp rfl

theorem collocate_fold_entries (weather : List WeatherSample) (waves0 : List WaveSample) :
    ∀ (waves : List WaveSample) (m : List (Int × WeatherSample)),
      (∀ wv ∈ waves, wv ∈ waves0) →
      (∀ p ∈ m, p.1 = p.2.time ∧
        ∃ wv ∈ waves0, nearest_weather weather wv.time = some p.2) →
      ∀ p ∈ waves.foldl (collocateStep weather) m, p.1 = p.2.time ∧
        ∃ wv ∈ waves0, nearest_weather weather wv.time = some p.2 := by
  intro waves
  induction waves with
  | nil => intro m _ hm; simpa using hm
  | cons wv rest ih =>
    intro m hsub hm
    rw [List.foldl_cons]
    apply ih _ (fun x hx => hsub x (List.mem_cons_of_mem wv hx))
    intro p hp
    unfold collocateStep at hp
    cases hw : nearest_weather weather wv.time with
    | none => rw [hw] at hp; exact hm p hp
    | some wt =>
      rw [hw] at hp
      rcases mem_setdefault hp with h1 | h2
      · exact hm p h1
      · subst h2
        exact ⟨rfl, wv, hsub wv (List.mem_cons_self _ _), hw⟩

theorem collocate_fold_nodup (weather : List WeatherSample) :
    ∀ (waves : List WaveSample) (m : List (Int × WeatherSample)),
      (m.map Prod.fst).Nodup →
      ((waves.foldl (collocateStep weather) m).map Prod.fst).Nodup := by
  intro waves
  induction waves with
  | nil => intro m hm; simpa using hm
  | cons wv rest ih =>
    intro m hm
    rw [List.foldl_cons]
    apply ih
    unfold collocateStep
    cases nearest_weather weather wv.time with
    | none => exact hm
    | some wt => exact nodup_keys_setdefault hm

theorem any_key_iff {m : List (Int × WeatherSample)} {k : Int} :
    (m.any fun p => p.1 == k) = true ↔ k ∈ m.map Prod.fst := by
  simp only [List.any_eq_true, beq_iff_eq, List.mem_map]

theorem mem_keys_setdefault_self (m : List (Int × WeatherSample)) (k : Int)
    (v : WeatherSample) : k ∈ (setdefault m k v).map Prod.fst := by
  unfold setdefault
  by_cases hk : (m.any fun p => p.1 == k) = true
  · rw [if_pos hk]
    exact any_key_iff.mp hk
  · rw [if_neg hk]
    simp

theorem mem_setdefault_of_mem {m : List (Int × WeatherSample)} {k : Int}
    {v : WeatherSample} {p : Int × WeatherSample} (h : p ∈ m) : p ∈ setdefault m k v := by
  unfold setdefault
  split
  · exact h
  · exact List.mem_append_left _ h

theorem keys_fold_mono (weather : List WeatherSample) :
    ∀ (waves : List WaveSample) (m : List (Int × WeatherSample)) (a : Int),
      a ∈ m.map Prod.fst → a ∈ (waves.foldl (collocateStep weather) m).map Prod.fst := by
  intro waves
  induction waves with
  | nil => intro m a h; simpa using h
  | cons wv rest ih =>
    intro m a h
    rw [List.foldl_cons]
    apply ih
    unfold collocateStep
    cases nearest_weather weather wv.time with
    | none => exact h
    | some wt =>
      obtain ⟨p, hp, he⟩ := List.mem_map.mp h
      exact List.mem_map.mpr ⟨p, mem_setdefault_of_mem hp, he⟩

theorem collocate_complete_key (weather : List WeatherSample) :
    ∀ (waves : List WaveSample) (m : List (Int × WeatherSample)) (wv : WaveSample)
      (wt : WeatherSample), wv ∈ waves → nearest_weather weather wv.time = some wt →
      wt.time ∈ (waves.foldl (collocateStep weather) m).map Prod.fst := by
  intro waves
  induction waves with
  | nil => intro m wv wt h _; simp at h
  | cons w0 rest ih =>
    intro m wv wt hmem hn
    rw [List.foldl_cons]
    rcases List.mem_cons.mp hmem with rfl | h2
    · apply keys_fold_mono
      unfold collocateStep
      rw [hn]
      exact mem_keys_setdefault_self m wt.time wt
    · exact ih _ wv wt h2 hn

theorem weatherSample_time_ext {a b : WeatherSample} (h : a.time = b.time) : a = b := by
  cases a
  cases b
  cases h
  rfl

/-- First occurrences of a sequence of keys, in order: `seen` holds the keys
already emitted. -/
def firstOccurrencesAux : List Int → List Int → List Int
  | _, [] => []
  | seen, k :: ks =>
    if k ∈ seen then firstOccurrencesAux seen ks
    else k :: firstOccurrencesAux (seen ++ [k]) ks

/-- The first occurrence of each key of a sequence, in sequence order. -/
def firstOccurrences (l : List Int) : List Int := firstOccurrencesAux [] l

/-- The per-wave matches, in wave-sample order: each selected wave sample's
nearest weather sample, keyed by that sample's own timestamp. -/
def collocateMatches (wave_objs : List WaveSample) (weather_list : List WeatherSample) :
    List (Int × WeatherSample) :=
  wave_objs.filterMap
    (fun wv => (nearest_weather weather_list wv.time).map (fun wt => (wt.time, wt)))

theorem collocate_fusion (weather : List WeatherSample) :
    ∀ (waves : List WaveSample) (m : List (Int × WeatherSample)),
      waves.foldl (collocateStep weather) m
        = (collocateMatches waves weather).foldl (fun acc p => setdefault acc p.1 p.2) m := by
  intro waves
  induction waves with
  | nil => intro m; rfl
  | cons wv rest ih =>
    intro m
    rw [List.foldl_cons]
    cases hn : nearest_weather weather wv.time with
    | none =>
      have hm : collocateMatches (wv :: rest) weather = collocateMatches rest weather := by
        simp [collocateMatches, List.filterMap_cons, hn]
      rw [hm]
      have hstep : collocateStep weather m wv = m := by
        unfold collocateStep
        rw [hn]
      rw [hstep]
      exact ih m
    | some wt =>
      have hm : collocateMatches (wv :: rest) weather
          = (wt.time, wt) :: collocateMatches rest weather := by
        simp [collocateMatches, List.filterMap_cons, hn]
      rw [hm, List.foldl_cons]
      have hstep : collocateStep weather m wv = setdefault m wt.time wt := by
        unfold collocateStep
        rw [hn]
      rw [hstep]
      exact ih (setdefault m wt.time wt)

theorem keys_sd_fold :
    ∀ (ps m : List (Int × WeatherSample)),
      (ps.foldl (fun acc p => setdefault acc p.1 p.2) m).map Prod.fst
        = m.map Prod.fst ++ firstOccurrencesAux (m.map Prod.fst) (ps.map Prod.fst) := by
  intro ps
  induction ps with
  | nil => intro m; simp [firstOccurrencesAux]
  | cons p ps' ih =>
    intro m
    rw [List.foldl_cons, List.map_cons]
    by_cases hk : p.1 ∈ m.map Prod.fst
    · have hsd : setdefault m p.1 p.2 = m := by
        unfold setdefault
        rw [if_pos (any_key_iff.mpr hk)]
      rw [hsd, ih m]
      conv_rhs => rw [firstOccurrencesAux]
      rw [if_pos hk]
    · have hsd : setdefault m p.1 p.2 = m ++ [p] := by
        unfold setdefault
        rw [if_neg (fun hc => hk (any_key_iff.mp hc))]
      rw [hsd, ih (m ++ [p])]
      conv_rhs => rw [firstOccurrencesAux]
      rw [if_neg hk]
      simp [List.map_append, List.append_assoc]

/-- Claim C6: with a non-empty weather sequence every selected wave sample
finds a nearest match (no tolerance cutoff) and that match is actually
inserted into the output map keyed by the matched weather sample's own
timestamp; every entry is such a match; keys are distinct, an existing key
keeps its first insertion, and the map's key order is the first occurrence
of each matched timestamp in wave-sample order; and a wave at `T` with
weather at `T-10` and `T+50` minutes is paired with the `T-10` sample. -/
theorem claim6_collocate_spec (wave_objs : List WaveSample)
    (weather_list : List WeatherSample) (hne : weather_list ≠ []) :
    (∀ wv ∈ wave_objs, ∃ wt, nearest_weather weather_list wv.time = some wt ∧
      wt ∈ weather_list ∧
      ∀ w2 ∈ weather_list, |wt.time - wv.time| ≤ |w2.time - wv.time|) ∧
    (∀ wv ∈ wave_objs, ∀ wt, nearest_weather weather_list wv.time = some wt →
      (wt.time, wt) ∈ collocate wave_objs weather_list) ∧
    (∀ p ∈ collocate wave_objs weather_list, p.1 = p.2.time ∧
      ∃ wv ∈ wave_objs, nearest_weather weather_list wv.time = some p.2) ∧
    ((collocate wave_objs weather_list).map Prod.fst).Nodup ∧
    (∀ (m : List (Int × WeatherSample)) (k : Int) (v : WeatherSample),
      (m.any fun p => p.1 == k) = true → setdefault m k v = m) ∧
    (collocate wave_objs weather_list).map Prod.fst
      = firstOccurrences ((collocateMatches wave_objs weather_list).map Prod.fst) ∧
    (∀ (t : Int) (w1 w2 : WeatherSample), w1.time = t - 10 → w2.time = t + 50 →
      nearest_weather [w1, w2] t = some w1) := by
  have hsound : ∀ p ∈ collocate wave_objs weather_list, p.1 = p.2.time ∧
      ∃ wv ∈ wave_objs, nearest_weather weather_list wv.time = some p.2 :=
    collocate_fold_entries weather_list wave_objs wave_objs []
      (fun _ hx => hx) (by simp)
  refine ⟨?_, ?_, hsound, ?_, ?_, ?_, ?_⟩
  · intro wv _
    cases ws : weather_list with
    | nil => exact absurd ws hne
    | cons w0 rest =>
      refine ⟨pickNearest wv.time w0 rest, rfl, ?_⟩
      exact nearest_weather_min (w0 :: rest) wv.time (pickNearest wv.time w0 rest) rfl
  · intro wv hwv wt hn
    have hkey : wt.time ∈ (collocate wave_objs weather_list).map Prod.fst :=
      collocate_complete_key weather_list wave_objs [] wv wt hwv hn
    obtain ⟨p, hp, he⟩ := List.mem_map.mp hkey
    have hp1 := (hsound p hp).1
    have hval : p.2 = wt := weatherSample_time_ext (by rw [← hp1, he])
    have hpair : p = (wt.time, wt) := by
      obtain ⟨p1, p2⟩ := p
      simp only at he hval
      rw [he, hval]
    rw [← hpair]
    exact hp
  · exact collocate_fold_nodup weather_list wave_objs [] (by simp)
  · intro m k v h
    simp [setdefault, h]
  · rw [collocate, collocate_fusion, keys_sd_fold]
    simp [firstOccurrences]
  · intro t w1 w2 h1 h2
    simp only [nearest_weather, pickNearest, List.foldl_cons, List.foldl_nil,
      Option.some.injEq]
    rw [h1, h2]
    have e1 : t + 50 - t = (50 : Int) := by ring
    have e2 : t - 10 - t = (-10 : Int) := by ring
    rw [e1, e2]
    norm_num

/-- Claim C10: when `nearest_weather` returns a sample, that sample is the
first element of the weather sequence attaining the minimal absolute time
difference — every earlier sample is strictly farther, every later one no
closer — so ties are broken toward the earlier sample. -/
theorem claim10_nearest_first (ws : List WeatherSample) (t : Int) (w : WeatherSample)
    (h : nearest_weather ws t = some w) :
    (∃ l1 l2, ws = l1 ++ w :: l2 ∧
      (∀ y ∈ l1, |w.time - t| < |y.time - t|) ∧
      (∀ y ∈ l2, |w.time - t| ≤ |y.time - t|)) ∧
    ∀ y ∈ ws, |w.time - t| ≤ |y.time - t| :=
  ⟨nearest_weather_split ws t w h, (nearest_weather_min ws t w h).2⟩

/-- A weather sample 10 minutes before the reference time 0. -/
def tieA : WeatherSample := ⟨-10⟩

/-- A weather sample 10 minutes after the reference time 0. -/
def tieB : WeatherSample := ⟨10⟩

/-- A selected wave sample at the reference time 0. -/
def wvA : WaveSample := ⟨0, 1⟩

/-- Witness for C10: with two samples tied at distance 10 from time 0,
`nearest_weather` returns the first. -/
theorem claim10_nearest_first_witness :
    (∃ l1 l2, [tieA, tieB] = l1 ++ tieA :: l2 ∧
      (∀ y ∈ l1, |tieA.time - 0| < |y.time - 0|) ∧
      (∀ y ∈ l2, |tieA.time - 0| ≤ |y.time - 0|)) ∧
    ∀ y ∈ [tieA, tieB], |tieA.time - 0| ≤ |y.time - 0| :=
  claim10_nearest_first [tieA, tieB] 0 tieA (by decide)

/-- Witness for C6 at one wave sample and the two-element weather list. -/
theorem claim6_collocate_spec_witness :
    (∀ wv ∈ [wvA], ∃ wt, nearest_weather [tieA, tieB] wv.time = some wt ∧
      wt ∈ [tieA, tieB] ∧
      ∀ w2 ∈ [tieA, tieB], |wt.time - wv.time| ≤ |w2.time - wv.time|) ∧
    (∀ wv ∈ [wvA], ∀ wt, nearest_weather [tieA, tieB] wv.time = some wt →
      (wt.time, wt) ∈ collocate [wvA] [tieA, tieB]) ∧
    (∀ p ∈ collocate [wvA] [tieA, tieB], p.1 = p.2.time ∧
      ∃ wv ∈ [wvA], nearest_weather [tieA, tieB] wv.time = some p.2) ∧
    ((collocate [wvA] [tieA, tieB]).map Prod.fst).Nodup ∧
    (∀ (m : List (Int × WeatherSample)) (k : Int) (v : WeatherSample),
      (m.any fun p => p.1 == k) = true → setdefault m k v = m) ∧
    (collocate [wvA] [tieA, tieB]).map Prod.fst
      = firstOccurrences ((collocateMatches [wvA] [tieA, tieB]).map Prod.fst) ∧
    (∀ (t : Int) (w1 w2 : WeatherSample), w1.time = t - 10 → w2.time = t + 50 →
      nearest_weather [w1, w2] t = some w1) :=
  claim6_collocate_spec [wvA] [tieA, tieB] (by decide)

/-- Python two-element unpacking `a, b = xs`: raises unless `xs` has exactly
two elements. -/
def unpack2 : List Str → Except Unit (Str × Str)
  | [a, b] => .ok (a, b)
  | _ => .error ()

/-- `dayRangeDays` with the tuple unpacking made fallible, as in the code. -/
def dayRangeDaysE (tok : Str) : Except Unit (Option (List Nat)) :=
  match unpack2 (pySplit1 '-' tok) with
  | .error e => .error e
  | .ok (a, b) =>
    .ok (match dayIdx? a, dayIdx? b with
      | some ai, some bi =>
        if ai ≤ bi then some (rangeFromTo ai (bi + 1))
        else some (rangeFromTo ai 7 ++ rangeFromTo 0 (bi + 1))
      | _, _ => none)

/-- `expandDaysAux` with the fallible range arm. -/
def expandDaysAuxE : List Nat → List Str → Except Unit (List Nat)
  | acc, [] => .ok acc
  | acc, tok0 :: rest =>
    let tok := strip tok0
    if tok = allTok then .ok (List.range 7)
    else if tok.contains '-' then
      match dayRangeDaysE tok with
      | .error e => .error e
      | .ok (some ds) => expandDaysAuxE (acc ++ ds) rest
      | .ok none => expandDaysAuxE acc rest
    else
      match dayIdx? tok with
      | some di => expandDaysAuxE (acc ++ [di]) rest
      | none => expandDaysAuxE acc rest

/-- `days_map[d].append(...)` with the dictionary lookup made fallible:
a `KeyError` for a weekday outside the table. -/
def appendIntervalE (m : DaysMap) (d : Nat) (iv : Nat × Nat) : Except Unit DaysMap :=
  if d < m.length then .ok (m.set d (m.getD d [] ++ [iv])) else .error ()

/-- `timeStep` with the fallible dictionary lookup. -/
def timeStepE (days : List Nat) (mm : DaysMap) (g : Nat × Nat × Nat × Nat) :
    Except Unit DaysMap :=
  let s := g.1 * 60 + g.2.1
  let en := g.2.2.1 * 60 + g.2.2.2
  if s < 1440 ∧ en ≤ 1440 ∧ s < en then
    days.foldlM (fun m2 d => appendIntervalE m2 d (s, en)) mm
  else .ok mm

/-- `applyRule` with every potentially-raising primitive checked. -/
def applyRuleE (m : DaysMap) (rule : Str) : Except Unit DaysMap :=
  let parts := splitWs rule
  match parts with
  | [] => .ok m
  | p0 :: _ =>
    let dt := if p0.any Char.isDigit then ([allTok], parts) else (splitOnCh ',' p0, parts.drop 1)
    let dayTokens := dt.1
    let timeTokens := dt.2
    match expandDaysAuxE [] dayTokens with
    | .error e => .error e
    | .ok days0 =>
      let days := if days0 = [] then List.range 7 else days0
      if timeTokens.any (fun t => toLowerStr t = offTok) then
        .ok (days.foldl clearDay m)
      else
        let joined := joinCh ',' timeTokens
        (finditerTimes joined).foldlM (timeStepE days) m

/-- `_parse_opening_hours` with every potentially-raising primitive checked. -/
def parse_opening_hoursE (spec0 : Str) : Except Unit OpeningPred :=
  let spec := strip spec0
  if spec = [] then .ok .always
  else if toLowerStr spec = fullWeekTok then .ok .always
  else
    let rules := ((splitOnCh ';' spec).map strip).filter (fun r => r ≠ [])
    let m0 : DaysMap := List.replicate 7 []
    match rules.foldlM applyRuleE m0 with
    | .error e => .error e
    | .ok m => .ok (.table (normalizeMap m))

theorem splitOnCh_ne_nil (sep : Char) : ∀ cs : Str, splitOnCh sep cs ≠ [] := by
  intro cs
  induction cs with
  | nil => simp [splitOnCh]
  | cons c rest ih =>
    by_cases h : c = sep
    · simp [splitOnCh, h]
    · simp only [splitOnCh, h, if_false]
      cases hs : splitOnCh sep rest with
      | nil => exact absurd hs ih
      | cons g gs => simp

theorem splitOnCh_length_two {sep : Char} :
    ∀ {cs : Str}, cs.contains sep = true → 2 ≤ (splitOnCh sep cs).length := by
  intro cs
  induction cs with
  | nil => intro h; simp [List.contains] at h
  | cons c rest ih =>
    intro h
    by_cases hc : c = sep
    · simp only [splitOnCh, hc, if_true]
      have := splitOnCh_ne_nil sep rest
      cases hs : splitOnCh sep rest with
      | nil => exact absurd hs this
      | cons g gs => simp
    · have hrest : rest.contains sep = true := by
        rw [List.contains_cons] at h
        rcases Bool.or_eq_true_iff.mp h with h1 | h1
        · exact absurd (beq_iff_eq.mp h1).symm hc
        · exact h1
      simp only [splitOnCh, hc, if_false]
      have h2 := ih hrest
      cases hs : splitOnCh sep rest with
      | nil => exact absurd hs (splitOnCh_ne_nil sep rest)
      | cons g gs =>
        rw [hs] at h2
        simpa using h2

theorem pySplit1_pair {sep : Char} {cs : Str} (h : cs.contains sep = true) :
    ∃ a b, pySplit1 sep cs = [a, b] := by
  have h2 := splitOnCh_length_two h
  cases hs : splitOnCh sep cs with
  | nil => exact absurd hs (splitOnCh_ne_nil sep cs)
  | cons a tl =>
    cases tl with
    | nil => rw [hs] at h2; simp at h2
    | cons b tl2 => exact ⟨a, joinCh sep (b :: tl2), by simp [pySplit1, hs]⟩

theorem dayRangeDaysE_ok {tok : Str} (h : tok.contains '-' = true) :
    dayRangeDaysE tok = .ok (dayRangeDays tok) := by
  obtain ⟨a, b, hab⟩ := pySplit1_pair h
  rw [dayRangeDaysE, dayRangeDays, hab]
  rfl

theorem expandDaysAuxE_ok :
    ∀ (toks : List Str) (acc : List Nat),
      expandDaysAuxE acc toks = .ok (expandDaysAux acc toks) := by
  intro toks
  induction toks with
  | nil => intro acc; rfl
  | cons t rest ih =>
    intro acc
    by_cases hall : strip t = allTok
    · simp [expandDaysAuxE, expandDaysAux, hall]
    · by_cases hcon : (strip t).contains '-' = true
      · simp only [expandDaysAuxE, expandDaysAux, hall, if_false, hcon, if_true,
          dayRangeDaysE_ok hcon]
        cases dayRangeDays (strip t) with
        | none => exact ih acc
        | some ds => exact ih (acc ++ ds)
      · rw [Bool.not_eq_true] at hcon
        simp only [expandDaysAuxE, expandDaysAux, hall, if_false, hcon,
          Bool.false_eq_true]
        cases dayIdx? (strip t) with
        | none => exact ih acc
        | some di => exact ih (acc ++ [di])

theorem dayIdx?_lt {s : Str} {i : Nat} (h : dayIdx? s = some i) : i < 7 := by
  unfold dayIdx? at h
  split at h <;> simp_all <;> omega

theorem mem_rangeFromTo {a b d : Nat} (h : d ∈ rangeFromTo a b) : a ≤ d ∧ d < b := by
  simp only [rangeFromTo, List.mem_map, List.mem_range] at h
  obtain ⟨k, hk, rfl⟩ := h
  omega

theorem dayRangeDays_lt {tok : Str} {ds : List Nat} (h : dayRangeDays tok = some ds) :
    ∀ d ∈ ds, d < 7 := by
  unfold dayRangeDays at h
  split at h
  · rename_i a b heq
    split at h
    · rename_i ai bi ha hb
      have hai := dayIdx?_lt ha
      have hbi := dayIdx?_lt hb
      by_cases hle : ai ≤ bi
      · rw [if_pos hle] at h
        cases h
        intro d hd
        have := mem_rangeFromTo hd
        omega
      · rw [if_neg hle] at h
        cases h
        intro d hd
        rcases List.mem_append.mp hd with h1 | h1
        · have := mem_rangeFromTo h1; omega
        · have := mem_rangeFromTo h1; omega
    · exact absurd h (by simp)
  · exact absurd h (by simp)

theorem expandDaysAux_lt :
    ∀ (toks : List Str) (acc : List Nat),
      (∀ d ∈ acc, d < 7) → ∀ d ∈ expandDaysAux acc toks, d < 7 := by
  intro toks
  induction toks with
  | nil => intro acc h; simpa [expandDaysAux] using h
  | cons t rest ih =>
    intro acc hacc
    by_cases hall : strip t = allTok
    · simp only [expandDaysAux, hall, if_true]
      intro d hd
      simpa using hd
    · by_cases hcon : (strip t).contains '-' = true
      · simp only [expandDaysAux, hall, if_false, hcon, if_true]
        cases hdr : dayRangeDays (strip t) with
        | none => exact ih acc hacc
        | some ds =>
          refine ih (acc ++ ds) ?_
          intro d hd
          rcases List.mem_append.mp hd with h1 | h1
          · exact hacc d h1
          · exact dayRangeDays_lt hdr d h1
      · rw [Bool.not_eq_true] at hcon
        simp only [expandDaysAux, hall, if_false, hcon, Bool.false_eq_true]
        cases hdi : dayIdx? (strip t) with
        | none => exact ih acc hacc
        | some di =>
          refine ih (acc ++ [di]) ?_
          intro d hd
          rcases List.mem_append.mp hd with h1 | h1
          · exact hacc d h1
          · rw [List.mem_singleton.mp h1]
            exact dayIdx?_lt hdi

theorem appendInterval_length (m : DaysMap) (d : Nat) (iv : Nat × Nat) :
    (appendInterval m d iv).length = m.length := by
  simp [appendInterval]

theorem foldl_appendInterval_length (iv : Nat × Nat) :
    ∀ (ds : List Nat) (m : DaysMap),
      (ds.foldl (fun m2 d => appendInterval m2 d iv) m).length = m.length := by
  intro ds
  induction ds with
  | nil => intro m; rfl
  | cons d ds ih => intro m; rw [List.foldl_cons, ih, appendInterval_length]

theorem foldl_appendIntervalE_ok (iv : Nat × Nat) :
    ∀ (ds : List Nat) (m : DaysMap), (∀ d ∈ ds, d < m.length) →
      ds.foldlM (fun m2 d => appendIntervalE m2 d iv) m
        = .ok (ds.foldl (fun m2 d => appendInterval m2 d iv) m) := by
  intro ds
  induction ds with
  | nil => intro m _; rfl
  | cons d ds ih =>
    intro m hd
    rw [List.foldlM_cons]
    have h1 : appendIntervalE m d iv = .ok (appendInterval m d iv) := by
      rw [appendIntervalE, if_pos (hd d (List.mem_cons_self _ _))]
      rfl
    rw [h1]
    show ds.foldlM (fun m2 d => appendIntervalE m2 d iv) (appendInterval m d iv) = _
    rw [ih (appendInterval m d iv) (fun d2 hd2 => by
      rw [appendInterval_length]
      exact hd d2 (List.mem_cons_of_mem _ hd2))]
    rw [List.foldl_cons]

theorem timeStep_length (days : List Nat) (mm : DaysMap) (g : Nat × Nat × Nat × Nat) :
    (timeStep days mm g).length = mm.length := by
  rw [timeStep]
  split
  · exact foldl_appendInterval_length _ days mm
  · rfl

theorem timeStepE_ok (days : List Nat) (mm : DaysMap) (g : Nat × Nat × Nat × Nat)
    (hd : ∀ d ∈ days, d < mm.length) :
    timeStepE days mm g = .ok (timeStep days mm g) := by
  rw [timeStepE, timeStep]
  split
  · exact foldl_appendIntervalE_ok _ days mm hd
  · rfl

theorem foldl_timeStep_length (days : List Nat) :
    ∀ (gs : List (Nat × Nat × Nat × Nat)) (mm : DaysMap),
      (gs.foldl (timeStep days) mm).length = mm.length := by
  intro gs
  induction gs with
  | nil => intro mm; rfl
  | cons g gs ih => intro mm; rw [List.foldl_cons, ih, timeStep_length]

theorem foldlM_timeStepE_ok (days : List Nat) :
    ∀ (gs : List (Nat × Nat × Nat × Nat)) (mm : DaysMap), (∀ d ∈ days, d < mm.length) →
      gs.foldlM (timeStepE days) mm = .ok (gs.foldl (timeStep days) mm) := by
  intro gs
  induction gs with
  | nil => intro mm _; rfl
  | cons g gs ih =>
    intro mm hd
    rw [List.foldlM_cons, timeStepE_ok days mm g hd]
    show gs.foldlM (timeStepE days) (timeStep days mm g) = _
    rw [ih (timeStep days mm g) (fun d2 hd2 => by
      rw [timeStep_length]
      exact hd d2 hd2)]
    rw [List.foldl_cons]

theorem foldl_clearDay_length : ∀ (ds : List Nat) (m : DaysMap),
    (ds.foldl clearDay m).length = m.length := by
  intro ds
  induction ds with
  | nil => intro m; rfl
  | cons d ds ih => intro m; rw [List.foldl_cons, ih]; simp [clearDay]

theorem applyRule_length (m : DaysMap) (rule : Str) :
    (applyRule m rule).length = m.length := by
  rw [applyRule]
  cases hp : splitWs rule with
  | nil => rfl
  | cons p0 ps =>
    simp only
    split <;> split
    · exact foldl_clearDay_length _ m
    · exact foldl_timeStep_length _ _ m
    · exact foldl_clearDay_length _ m
    · exact foldl_timeStep_length _ _ m

theorem daysOf_lt (toks : List Str) :
    ∀ d ∈ (if expandDaysAux [] toks = [] then List.range 7 else expandDaysAux [] toks),
      d < 7 := by
  split
  · intro d hd; simpa using hd
  · exact expandDaysAux_lt toks [] (by simp)

theorem applyRuleE_ok (m : DaysMap) (rule : Str) (hm : m.length = 7) :
    applyRuleE m rule = .ok (applyRule m rule) := by
  rw [applyRuleE, applyRule]
  cases hp : splitWs rule with
  | nil => rfl
  | cons p0 ps =>
    simp only [expandDaysAuxE_ok]
    split <;> split
    · rfl
    · exact foldlM_timeStepE_ok _ _ m (fun d hd => by rw [hm]; exact daysOf_lt _ d hd)
    · rfl
    · exact foldlM_timeStepE_ok _ _ m (fun d hd => by rw [hm]; exact daysOf_lt _ d hd)

theorem foldlM_applyRuleE_ok :
    ∀ (rules : List Str) (m : DaysMap), m.length = 7 →
      rules.foldlM applyRuleE m = .ok (rules.foldl applyRule m) := by
  intro rules
  induction rules with
  | nil => intro m _; rfl
  | cons r rs ih =>
    intro m hm
    rw [List.foldlM_cons, applyRuleE_ok m r hm]
    show rs.foldlM applyRuleE (applyRule m r) = _
    rw [ih (applyRule m r) (by rw [applyRule_length, hm])]
    rw [List.foldl_cons]

/-- Claim C8: on every string input the parser returns a predicate without
raising — the checked parser (every potentially-raising primitive made
explicit) always succeeds and agrees with the total parser, so malformed day
and time tokens are skipped and never surface as an error. -/
theorem claim8_parser_total (spec0 : Str) :
    parse_opening_hoursE spec0 = .ok (parse_opening_hours spec0) := by
  rw [parse_opening_hoursE, parse_opening_hours]
  by_cases h1 : strip spec0 = []
  · simp [h1]
  · by_cases h2 : toLowerStr (strip spec0) = fullWeekTok
    · simp [h1, h2]
    · simp only [h1, h2, if_false]
      rw [foldlM_applyRuleE_ok _ _ (by simp)]

/-- The per-location aggregate of `process_location`: only the field the run
loop consumes for the subject line is modelled. -/
structure Agg where
  exceed_count : Nat
deriving DecidableEq

/-- The outcome of a run: a no-op, or one notification handed to the mailer
with the collected aggregates and total exceedance count. -/
inductive RunOutcome where
  | noop
  | sent (aggregates : List Agg) (total_exceed : Nat)
deriving DecidableEq

/-- One iteration of the location loop of `run` (lines 412-420): the
per-location processing either raises (`.error`, caught and the location
skipped), finds no exceedance (`.ok none`), or yields an aggregate. -/
def runStep (proc : α → Except Unit (Option Agg)) (st : List Agg × Nat) (loc : α) :
    List Agg × Nat :=
  match proc loc with
  | .ok (some a) => (st.1 ++ [a], st.2 + a.exceed_count)
  | .ok none => st
  | .error _ => st

/-- The `aggregates` list and `total_exceed` collected by `run`. -/
def runAggregates (locs : List α) (proc : α → Except Unit (Option Agg)) :
    List Agg × Nat :=
  locs.foldl (runStep proc) ([], 0)

/-- `run` (lines 405-457): iterate the locations, then send a single email
only when at least one aggregate was produced. -/
def runModel (locs : List α) (proc : α → Except Unit (Option Agg)) : RunOutcome :=
  let st := runAggregates locs proc
  if st.1 = [] then .noop else .sent st.1 st.2

/-- Whether an outcome attempts notification. -/
def attemptsNotify : RunOutcome → Bool
  | .noop => false
  | .sent _ _ => true

/-- The aggregate a location contributes, if any. -/
def runSelect (proc : α → Except Unit (Option Agg)) (l : α) : Option Agg :=
  match proc l with
  | .ok (some a) => some a
  | _ => none

theorem runFold_eq (proc : α → Except Unit (Option Agg)) :
    ∀ (locs : List α) (st : List Agg × Nat),
      locs.foldl (runStep proc) st
        = (st.1 ++ locs.filterMap (runSelect proc),
           st.2 + ((locs.filterMap (runSelect proc)).map Agg.exceed_count).sum) := by
  intro locs
  induction locs with
  | nil => intro st; simp
  | cons l rest ih =>
    intro st
    rw [List.foldl_cons, ih]
    cases hp : proc l with
    | ok v =>
      cases v with
      | some a =>
        simp [runStep, runSelect, hp, List.filterMap_cons]
        omega
      | none => simp [runStep, runSelect, hp, List.filterMap_cons]
    | error e => simp [runStep, runSelect, hp, List.filterMap_cons]

/-- Claim C7: a failing location contributes nothing and leaves the other
locations' results unchanged — the collected aggregates are exactly the
per-location successes in order, collection distributes over list splits,
dropping an erroring location is invisible, and the run attempts
notification iff some aggregate was produced. -/
theorem claim7_run_spec (locs : List α) (proc : α → Except Unit (Option Agg)) :
    (runAggregates locs proc).1 = locs.filterMap (runSelect proc) ∧
    (∀ pre post : List α, (runAggregates (pre ++ post) proc).1
        = (runAggregates pre proc).1 ++ (runAggregates post proc).1) ∧
    (∀ (pre post : List α) (l : α), proc l = .error () →
      runModel (pre ++ l :: post) proc = runModel (pre ++ post) proc) ∧
    ((runAggregates locs proc).1 = [] ↔ runModel locs proc = .noop) ∧
    (attemptsNotify (runModel locs proc) = true ↔ (runAggregates locs proc).1 ≠ []) := by
  have hfst : ∀ ls : List α, (runAggregates ls proc).1 = ls.filterMap (runSelect proc) := by
    intro ls
    rw [runAggregates, runFold_eq proc ls ([], 0)]
    simp
  have hagg : ∀ ls : List α, runAggregates ls proc
      = (ls.filterMap (runSelect proc),
         ((ls.filterMap (runSelect proc)).map Agg.exceed_count).sum) := by
    intro ls
    rw [runAggregates, runFold_eq proc ls ([], 0)]
    simp
  refine ⟨hfst locs, ?_, ?_, ?_, ?_⟩
  · intro pre post
    rw [hfst, hfst, hfst, List.filterMap_append]
  · intro pre post l herr
    have hsel : runSelect proc l = none := by simp [runSelect, herr]
    rw [runModel, runModel, hagg, hagg]
    simp [List.filterMap_append, List.filterMap_cons, hsel]
  · rw [runModel]
    constructor
    · intro h; simp [h]
    · intro h
      by_contra hne
      simp only [if_neg hne] at h
      exact RunOutcome.noConfusion h
  · rw [runModel]
    by_cases h : (runAggregates locs proc).1 = []
    · simp [h, attemptsNotify]
    · simp [h, attemptsNotify]

/-- `rows[:n]` (line 224): Python list slicing by an integer bound. -/
def pySlice (rows : List α) (n : Int) : List α :=
  if 0 ≤ n then rows.take n.toNat else rows.take (rows.length - (-n).toNat)

/-- `load_locations(limit)` (lines 215-225): all rows in store order, sliced
when a limit is given. -/
def load_locations (rows : List α) (limit : Option Int) : List α :=
  match limit with
  | none => rows
  | some n => pySlice rows n

/-- `limit if limit else None` (line 406): any falsy limit (0 or None)
becomes None, meaning no cap. -/
def effectiveLimit (limit : Option Int) : Option Int :=
  match limit with
  | some n => if n = 0 then none else some n
  | none => none

/-- The location list `run(limit)` iterates. -/
def runLocations (rows : List α) (limit : Option Int) : List α :=
  load_locations rows (effectiveLimit limit)

/-- Claim C9: `run(limit=0)` treats the falsy limit as no cap and processes
every location the store returned, the same as `limit=None`; a non-zero
limit is passed through to the slice. -/
theorem claim9_limit_zero (rows : List α) :
    runLocations rows (some 0) = rows ∧
    runLocations rows none = rows ∧
    ∀ n : Int, n ≠ 0 → runLocations rows (some n) = pySlice rows n := by
  refine ⟨rfl, rfl, ?_⟩
  intro n hn
  simp [runLocations, effectiveLimit, hn, load_locations]

/-- Witness for C4 at the concrete token list `["Xx"]`. -/
theorem claim4_day_fallback_witness :
    (∀ tok ∈ [xxTok], strip tok ≠ allTok ∧ (strip tok).contains '-' = false ∧
      dayIdx? (strip tok) = none) ∧
    ((∀ acc, expandDaysAux acc [xxTok] = acc) ∧
    (if expandDaysAux [] [xxTok] = [] then List.range 7 else expandDaysAux [] [xxTok])
      = List.range 7 ∧
    parse_opening_hours unknownDaySpec = .table (List.replicate 7 [(300, 1020)])) :=
  ⟨by decide, claim4_day_fallback [xxTok] (by decide)⟩

end WaveAlert
